import Mathlib

/-!
Shallow embedding of the Aadhaar EWS analytics pipeline
(`src/process_data.py`, class `AadhaarEWSProcessor`) and proofs about it.

Conventions used throughout:
* A raw event row (`Event n`) carries the result of date parsing as
  `Option Int` (days on a linear calendar): `pd.to_datetime(..., format,
  errors='coerce')` yields `NaT` exactly when parsing fails, modelled as
  `none`.
* pandas floating-point arithmetic is modelled over `ℝ`; a value that the
  code turns into `NaN` (or a Python `ZeroDivisionError`) is modelled as
  `none` in an `Option ℝ`, with the fault condition made explicit at the
  point where pandas/Python would produce it.
* Integer count columns are modelled as `Int` (pandas int64).
-/

/-- Geographic reference row of the pincode table.  After
`canonicalize_geography` renames the columns, the order is
(pincode, district, state). -/
structure RefRow where
  pincode : Int
  district : String
  state : String
deriving DecidableEq

/-- ASCII upper-casing of a label, character by character: the meaning of
pandas `str.upper()` on the ASCII labels handled here. -/
def upperStr (s : String) : String := String.mk (s.data.map Char.toUpper)

/-- Whitespace test used by `trimStr`. -/
def isWS (c : Char) : Bool := c = ' ' || c = '\t' || c = '\n' || c = '\r'

/-- Strip leading and trailing whitespace from a label: the meaning of
pandas `str.strip()`. -/
def trimStr (s : String) : String :=
  String.mk (((s.data.dropWhile isWS).reverse.dropWhile isWS).reverse)

/-- Keep the first row for each pincode, dropping later duplicates:
`drop_duplicates(subset=['pincode'])`. -/
def dedupByPin : List RefRow → List RefRow
  | [] => []
  | r :: rest => r :: (dedupByPin rest).filter (fun s => decide (s.pincode ≠ r.pincode))

/-- Cleaning of the pincode reference performed by `canonicalize_geography`:
strip and upper-case the state and district labels, then de-duplicate by
pincode (first entry wins). -/
def cleanRef (ref : List RefRow) : List RefRow :=
  dedupByPin (ref.map fun r =>
    { r with state := upperStr (trimStr r.state),
             district := upperStr (trimStr r.district) })

/-- Look up the canonical (state, district) pair for a pincode in the
(cleaned) reference; `none` when the pincode is absent.  This is the
row-level meaning of the left merge on `pincode` in
`_apply_canonicalization`. -/
def lookupPin (ref : List RefRow) (p : Int) : Option (String × String) :=
  (ref.find? fun r => decide (r.pincode = p)).map fun r => (r.state, r.district)

/-- A raw event row of one source stream: parsed date (`none` = `NaT`,
i.e. the original date string failed to parse under `errors='coerce'`),
pincode, originally reported state and district labels, and the stream's
`n` age-bracket counts. -/
structure Event (n : Nat) where
  date : Option Int
  pincode : Int
  state : String
  district : String
  counts : Fin n → Int

/-- The computation performed inside `_apply_canonicalization` on its local
dataframe: left-merge with the reference on pincode, take the reference's
state/district where matched, and fill the unmatched rows (merge `NaN`)
with the originally reported labels.  No row is dropped. -/
def apply_canonicalization {n : Nat} (df : List (Event n)) (ref : List RefRow) :
    List (Event n) :=
  df.map fun e =>
    match lookupPin ref e.pincode with
    | some (s, d) => { e with state := s, district := d }
    | none => e

/-- The effect of `_apply_canonicalization` as observed by the pipeline:
the method rebinds its local variable `df` to the merged frame
(`df = df.merge(...)`) and returns `None`, so the caller's dataframe
(`self.enrolment_df` etc.) is left completely unchanged — the merged,
canonicalized frame is discarded.  The table that flows into weekly
aggregation is therefore the input table itself. -/
def canonicalizeEffect {n : Nat} (df : List (Event n)) (_ref : List RefRow) :
    List (Event n) :=
  df

/-- Week bucket of a parsed day under `dt.to_period('W-MON')`: every day is
mapped to the first day of its fixed 7-day span (the calendar is chosen so
that day 0 starts a span).  The concrete anchor weekday is irrelevant to
the claims; what matters is that days in the same span share a bucket. -/
def toPeriodWMON (d : Int) : Int := d - d % 7

/-- String week label, `dt.to_period('W-MON').astype(str)`.  A `NaT` date
(unparseable date string) is stringified by pandas to the literal string
"NaT"; a real period becomes its textual representation. -/
def weekLabel : Option Int → String
  | none => "NaT"
  | some d => "W" ++ toString (toPeriodWMON d)

/-- Grouping key used by `aggregate_weekly`: (week, state, district). -/
abbrev GKey := String × String × String

/-- The (week, state, district) key of an event row, using the week label
column added by `aggregate_weekly`. -/
def weekKey {n : Nat} (e : Event n) : GKey :=
  (weekLabel e.date, e.state, e.district)

/-- Per-stream weekly aggregate: `groupby(['week','state','district'])`
summing each age-bracket column, then a stream total as the sum of the
aggregated brackets.  One output entry per distinct key. -/
def streamWeekly {n : Nat} (evs : List (Event n)) :
    List (GKey × (Fin n → Int) × Int) :=
  ((evs.map weekKey).dedup).map fun k =>
    let grp := evs.filter fun e => decide (weekKey e = k)
    let br : Fin n → Int := fun i => (grp.map fun e => e.counts i).sum
    (k, br, ((List.finRange n).map br).sum)

/-- Association-list lookup by grouping key. -/
def lookupKey {α : Type} (k : GKey) : List (GKey × α) → Option α
  | [] => none
  | (k', a) :: rest => if k' = k then some a else lookupKey k rest

/-- Key set of the two chained outer merges in `aggregate_weekly`: the
enrolment keys, then demographic keys not present in enrolment, then
biometric keys present in neither. -/
def mergedKeys (k1 k2 k3 : List GKey) : List GKey :=
  k1 ++ k2.filter (fun k => decide (k ∉ k1))
     ++ k3.filter (fun k => decide (k ∉ k1 ∧ k ∉ k2))

/-- Number of occurrences of a key in a key list. -/
def countKey (k : GKey) (l : List GKey) : Nat :=
  (l.filter fun x => decide (x = k)).length

/-- One row of the merged weekly table `self.ews_data` (volume columns
only; analytics columns are computed by later stages from these). -/
structure EwsRow where
  week : String
  state : String
  district : String
  enrolBr : Fin 3 → Int
  enrol_total : Int
  demoBr : Fin 2 → Int
  demo_total : Int
  bioBr : Fin 2 → Int
  bio_total : Int

/-- The (week, state, district) identity of a merged row. -/
def EwsRow.key (r : EwsRow) : GKey := (r.week, r.state, r.district)

/-- `aggregate_weekly`: aggregate each stream, outer-merge the three
aggregates on (week, state, district), fill the join-introduced missing
values with zero (`fillna(0)`) and store every volume column as an
integer (`astype(int)`). -/
def aggregate_weekly (en : List (Event 3)) (de bi : List (Event 2)) :
    List EwsRow :=
  let ea := streamWeekly en
  let da := streamWeekly de
  let ba := streamWeekly bi
  (mergedKeys (ea.map Prod.fst) (da.map Prod.fst) (ba.map Prod.fst)).map fun k =>
    let e := (lookupKey k ea).getD (fun _ => 0, 0)
    let d := (lookupKey k da).getD (fun _ => 0, 0)
    let b := (lookupKey k ba).getD (fun _ => 0, 0)
    { week := k.1, state := k.2.1, district := k.2.2
      enrolBr := e.1, enrol_total := e.2
      demoBr := d.1, demo_total := d.2
      bioBr := b.1, bio_total := b.2 }

/-- Trend labels produced by `classify_trend` in `compute_trends`. -/
inductive Trend where
  | insufficient_data
  | accelerating_up
  | rising
  | stable
  | accelerating_down
  | declining
deriving DecidableEq

/-- Risk categories produced by `assign_risk` in `classify_risk`. -/
inductive Risk where
  | Critical
  | Emerging_Risk
  | Watchlist
  | Stable
deriving DecidableEq

/-- `assign_risk` from `classify_risk`, verbatim rule order: score and the
row's trend label and anomaly flag, first matching rule wins. -/
def assign_risk (score : ℚ) (trend : Trend) (anomaly : Bool) : Risk :=
  if score ≥ 90 ∨ (anomaly = true ∧ (trend = .accelerating_up ∨ trend = .rising)) then
    .Critical
  else if score ≥ 75 ∧ (trend = .accelerating_up ∨ trend = .rising) then
    .Emerging_Risk
  else if score ≥ 60 ∨ (anomaly = true ∧ trend ≠ .declining) then
    .Watchlist
  else
    .Stable

/-- The risk decision table as the specification words it (§4.7): written
with explicit membership in the trend set, to be compared with the code's
`assign_risk`. -/
def specRisk (score : ℚ) (trend : Trend) (anomaly : Bool) : Risk :=
  if score ≥ 90 ∨ (anomaly = true ∧ trend ∈ [Trend.accelerating_up, Trend.rising]) then
    .Critical
  else if score ≥ 75 ∧ trend ∈ [Trend.accelerating_up, Trend.rising] then
    .Emerging_Risk
  else if score ≥ 60 ∨ (anomaly = true ∧ trend ≠ .declining) then
    .Watchlist
  else
    .Stable

/-- `classify_trend` from `compute_trends`: `none` change (pandas `NaN`
from `.diff()` at an entity's first row) gives `insufficient_data`;
otherwise momentum is defaulted to 0 when `NaN` and the ordered rules
apply, first match wins. -/
def classify_trend (change momentum : Option ℚ) : Trend :=
  match change with
  | none => .insufficient_data
  | some c =>
    let m := momentum.getD 0
    if 5 < c ∧ 0 < m then .accelerating_up
    else if 3 < c then .rising
    else if -3 < c then .stable
    else if c < -5 ∧ m < 0 then .accelerating_down
    else .declining

/-- The trend rule set as the specification words it (§4.6), as a total
function of a defined change and a (defaulted) momentum value. -/
def specTrend (c m : ℚ) : Trend :=
  if 5 < c ∧ 0 < m then .accelerating_up
  else if 3 < c then .rising
  else if -3 < c then .stable
  else if c < -5 ∧ m < 0 then .accelerating_down
  else .declining

/-- Helper for `seriesDiff`: successive differences against a running
previous value. -/
def diffAux (p : ℚ) : List ℚ → List (Option ℚ)
  | [] => []
  | x :: rest => some (x - p) :: diffAux x rest

/-- pandas `Series.diff()` on a fully defined series: first entry `NaN`
(`none`), entry i is `x i - x (i-1)`. -/
def seriesDiff : List ℚ → List (Option ℚ)
  | [] => []
  | x :: rest => none :: diffAux x rest

/-- `NaN`-propagating subtraction of consecutive optional values. -/
def diffO : Option ℚ → Option ℚ → Option ℚ
  | some a, some b => some (b - a)
  | _, _ => none

/-- Helper for `seriesDiffO`: successive `NaN`-propagating differences. -/
def diffOAux (p : Option ℚ) : List (Option ℚ) → List (Option ℚ)
  | [] => []
  | c :: rest => diffO p c :: diffOAux c rest

/-- pandas `Series.diff()` on a series that already contains `NaN`s (the
change column): first entry `NaN`, entry i is `NaN` unless entries i and
i-1 are both defined. -/
def seriesDiffO : List (Option ℚ) → List (Option ℚ)
  | [] => []
  | c :: rest => none :: diffOAux c rest

/-- `compute_trends` restricted to one (state, district) entity whose
severity scores, sorted by week ascending, are `xs`: change = `.diff()`,
momentum = `.diff()` of the change column, then row-wise
`classify_trend`. -/
def compute_trends (xs : List ℚ) : List Trend :=
  List.zipWith classify_trend (seriesDiff xs) (seriesDiffO (seriesDiff xs))

/-- Number of entries of `xs` strictly below `x`. -/
def cntLt (xs : List Int) (x : Int) : Nat :=
  (xs.filter fun y => decide (y < x)).length

/-- Number of entries of `xs` equal to `x`. -/
def cntEq (xs : List Int) (x : Int) : Nat :=
  (xs.filter fun y => decide (y = x)).length

/-- pandas `rank(pct=True) * 100` with the default `method='average'`:
the average rank of `x` among `xs` (ties receive the mean of their
positions in ascending order, in closed form
`cntLt + (cntEq + 1) / 2`), divided by the group size, times 100. -/
def pctRank (xs : List Int) (x : Int) : ℚ :=
  ((cntLt xs x : ℚ) + ((cntEq xs x : ℚ) + 1) / 2) / (xs.length : ℚ) * 100

/-- The `enrol_total` column of the merged table, as reals. -/
def totalsE (t : List EwsRow) : List ℝ := t.map fun r => (r.enrol_total : ℝ)

/-- The `demo_total` column of the merged table, as reals. -/
def totalsD (t : List EwsRow) : List ℝ := t.map fun r => (r.demo_total : ℝ)

/-- The `bio_total` column of the merged table, as reals. -/
def totalsB (t : List EwsRow) : List ℝ := t.map fun r => (r.bio_total : ℝ)

/-- pandas `Series.mean()`: sum over length (an empty column would give
`NaN`; the claims below never evaluate it on an empty column without a
guard). -/
noncomputable def meanR (xs : List ℝ) : ℝ := xs.sum / (xs.length : ℝ)

/-- pandas `Series.std()`: the SAMPLE standard deviation (default
`ddof=1`), i.e. the square root of the squared deviations from the mean
divided by `n - 1`.  For `n ≤ 1` pandas returns `NaN`, modelled as
`none`. -/
noncomputable def sampleStd (xs : List ℝ) : Option ℝ :=
  if xs.length ≤ 1 then none
  else some (Real.sqrt ((xs.map fun x => (x - meanR xs) ^ 2).sum / ((xs.length : ℝ) - 1)))

open Classical in
/-- One stream's coefficient of variation as `compute_severity_scores`
computes it: `std_val / mean_val if mean_val > 0 else 0`.  A `NaN`
standard deviation (single-row table) propagates to a `NaN` CV (`none`)
when the mean is positive. -/
noncomputable def cvOf (xs : List ℝ) : Option ℝ :=
  if 0 < meanR xs then (sampleStd xs).map (· / meanR xs) else some 0

/-- The three stream CVs of a merged table; `none` as soon as one of them
is `NaN`, which in the code makes `total_cv` and every weight `NaN`. -/
noncomputable def cvTriple (t : List EwsRow) : Option (ℝ × ℝ × ℝ) :=
  (cvOf (totalsE t)).bind fun a =>
    (cvOf (totalsD t)).bind fun b =>
      (cvOf (totalsB t)).map fun c => (a, b, c)

open Classical in
/-- The normalized weight vector `weights = {k: v / total_cv}`.  `none`
models the two failure modes of the code at this point: a `NaN` CV
propagating into every weight, and `total_cv = 0`, where the division
`v / total_cv` either raises `ZeroDivisionError` (all three CVs came from
the integer `else 0` branch) or yields `NaN` weights (float zeros); in
both cases no valid weight triple is produced. -/
noncomputable def weightVector (t : List EwsRow) : Option (ℝ × ℝ × ℝ) :=
  match cvTriple t with
  | none => none
  | some (a, b, c) =>
      if a + b + c = 0 then none
      else some (a / (a + b + c), b / (a + b + c), c / (a + b + c))

/-- The `enrol_total` values of the rows sharing week `w`, the population
over which `groupby('week')[col].rank(pct=True)` ranks a row. -/
def weekTotalsE (t : List EwsRow) (w : String) : List Int :=
  (t.filter fun r => decide (r.week = w)).map fun r => r.enrol_total

/-- Same-week `demo_total` values. -/
def weekTotalsD (t : List EwsRow) (w : String) : List Int :=
  (t.filter fun r => decide (r.week = w)).map fun r => r.demo_total

/-- Same-week `bio_total` values. -/
def weekTotalsB (t : List EwsRow) (w : String) : List Int :=
  (t.filter fun r => decide (r.week = w)).map fun r => r.bio_total

/-- The `severity_score` column produced by `compute_severity_scores`:
when the weight vector is `NaN` (see `weightVector`) every row's score is
`NaN` (`none`); otherwise each row's score is the weighted sum of its
three intra-week percentile ranks. -/
noncomputable def severityColumn (t : List EwsRow) : List (Option ℝ) :=
  match weightVector t with
  | none => t.map fun _ => none
  | some (wa, wb, wc) =>
      t.map fun r => some
        (wa * (pctRank (weekTotalsE t r.week) r.enrol_total : ℝ) +
         wb * (pctRank (weekTotalsD t r.week) r.demo_total : ℝ) +
         wc * (pctRank (weekTotalsB t r.week) r.bio_total : ℝ))

/-- Population standard deviation (denominator `n`), the statistic the
specification claims the weight estimator uses. -/
noncomputable def popStd (xs : List ℝ) : ℝ :=
  Real.sqrt ((xs.map fun x => (x - meanR xs) ^ 2).sum / (xs.length : ℝ))

open Classical in
/-- Coefficient of variation exactly as claim C3 words it: population
standard deviation divided by the mean, with a zero-mean stream assigned
CV exactly 0. -/
noncomputable def cvSpecPop (xs : List ℝ) : ℝ :=
  if meanR xs = 0 then 0 else popStd xs / meanR xs

open Classical in
/-- Coefficient of variation as the amended claim C3 words it: the
Bessel-corrected SAMPLE standard deviation (denominator `n - 1`) divided
by the mean when the mean is positive (undefined for a single-row table,
where the sample deviation is `NaN`), and exactly 0 when the mean is not
positive. -/
noncomputable def sampleCVSpec (xs : List ℝ) : Option ℝ :=
  if 0 < meanR xs then
    if 1 < xs.length then
      some (Real.sqrt ((xs.map fun x => (x - meanR xs) ^ 2).sum / ((xs.length : ℝ) - 1))
              / meanR xs)
    else none
  else some 0

/-- A constant all-zero merged row, used by concrete tables below. -/
def zeroRow (w s d : String) : EwsRow :=
  { week := w, state := s, district := d
    enrolBr := fun _ => 0, enrol_total := 0
    demoBr := fun _ => 0, demo_total := 0
    bioBr := fun _ => 0, bio_total := 0 }

/-- One-row merged table whose stream totals are all zero: all three
stream means are zero. -/
def tableAllZero : List EwsRow := [zeroRow "W0" "S" "D"]

/-- One-row merged table with positive totals: the sample standard
deviation of a single observation is `NaN`. -/
def tableOneRow : List EwsRow :=
  [{ zeroRow "W0" "S" "D" with enrol_total := 7, demo_total := 3, bio_total := 2 }]

/-- Two-row merged table whose enrolment totals are 0 and 2: the
population standard deviation is 1 while the sample standard deviation is
the square root of 2. -/
def tableTwoRows : List EwsRow :=
  [{ zeroRow "W0" "S" "D1" with enrol_total := 0 },
   { zeroRow "W0" "S" "D2" with enrol_total := 2 }]

/-- Three-row merged table with enrolment totals 0, 1, 2 (sample standard
deviation 1, mean 1, so enrolment CV is 1) and all other totals zero. -/
def tableThreeRows : List EwsRow :=
  [{ zeroRow "W0" "S" "D1" with enrol_total := 0 },
   { zeroRow "W0" "S" "D2" with enrol_total := 1 },
   { zeroRow "W0" "S" "D3" with enrol_total := 2 }]

/-- A one-row pincode reference mapping 700001 to (after cleaning)
state WEST BENGAL, district KOLKATA. -/
def refKolkata : List RefRow := [⟨700001, " Kolkata ", " west bengal "⟩]

/-- An enrolment event whose pincode 700001 is present in `refKolkata`
but whose reported labels differ from the canonical ones. -/
def evWB : Event 3 := ⟨some 0, 700001, "WB", "CAL", fun _ => 0⟩

/-- An enrolment event whose date string failed to parse
(`date = none`, i.e. `NaT`), carrying bracket counts 5, 5, 5. -/
def evNaT : Event 3 := ⟨none, 1, "S", "D", fun _ => 5⟩

/-- An enrolment event with a parsed date in week "W0". -/
def evE : Event 3 := ⟨some 0, 1, "S", "D", fun _ => 2⟩

/-- A biometric event in week "W0" for a district with no enrolment
coverage. -/
def evB : Event 2 := ⟨some 0, 1, "S", "E", fun _ => 3⟩

/-! ## Theorems -/

/-- C1: for every raw event row whose postal code is present in the pincode
reference, the state and region labels the row carries into weekly
aggregation are the canonical pair from the reference.  This FAILS on the
code: `_apply_canonicalization` rebinds its local `df` to the merged frame
and returns `None`, so the caller's table — the one `aggregate_weekly`
reads — is unchanged.  At the concrete failing input below, the reference
resolves pincode 700001 to (WEST BENGAL, KOLKATA) and the intended local
computation does relabel the row, yet the table observed by the pipeline
still carries the reported label "WB". -/
theorem c1_canonicalization_discarded :
    lookupPin (cleanRef refKolkata) 700001 = some ("WEST BENGAL", "KOLKATA")
    ∧ (apply_canonicalization [evWB] (cleanRef refKolkata)).map Event.state
        = ["WEST BENGAL"]
    ∧ (canonicalizeEffect [evWB] (cleanRef refKolkata)).map Event.state = ["WB"]
    ∧ "WB" ≠ "WEST BENGAL" :=
  ⟨by decide, by decide, by decide, by decide⟩

/-- Projecting the key out of a list of key-tagged records recovers the
underlying list of keys. -/
theorem map_fst_mk {α β : Type} (l : List α) (f : α → β) :
    (l.map fun a => (a, f a)).map Prod.fst = l := by
  induction l with
  | nil => rfl
  | cons x xs ih => simp [ih]

/-- The keys of a per-stream weekly aggregate are exactly the distinct
(week, state, district) keys of its events, in order of first
occurrence. -/
theorem streamWeekly_keys {n : Nat} (evs : List (Event n)) :
    (streamWeekly evs).map Prod.fst = (evs.map weekKey).dedup :=
  map_fst_mk _ _

/-- C2 counterexample: a row whose date string failed to parse is NOT
excluded from weekly bucketing.  `to_period('W-MON').astype(str)` turns
its `NaT` date into the literal string "NaT", which `groupby` treats as an
ordinary key, so the row forms the group ("NaT", S, D), carries its
bracket counts into it, and yields an output row of the merged table —
contradicting the claim that it contributes to no group and no output
row. -/
theorem c2_counterexample :
    (aggregate_weekly [evNaT] [] []).map EwsRow.key = [("NaT", "S", "D")]
    ∧ (aggregate_weekly [evNaT] [] []).map (fun r => r.enrol_total) = [15] :=
  ⟨by decide, by decide⟩

/-- C2 (amended): a raw event row whose date failed to parse is coerced to
`NaT` and then bucketed under the synthetic week label "NaT": it
contributes to the (week = "NaT", state, region) group of its stream's
weekly aggregate (and hence to an output row), rather than being
excluded; no error is raised for it. -/
theorem c2_nat_week_bucketing {n : Nat} (evs : List (Event n)) (e : Event n)
    (he : e ∈ evs) (hd : e.date = none) :
    ("NaT", e.state, e.district) ∈ (streamWeekly evs).map Prod.fst := by
  have hk : weekKey e = ("NaT", e.state, e.district) := by
    simp [weekKey, weekLabel, hd]
  rw [streamWeekly_keys, List.mem_dedup]
  exact hk ▸ List.mem_map_of_mem weekKey he

/-- Witness for `c2_nat_week_bucketing` at the concrete event `evNaT`. -/
theorem c2_nat_week_bucketing_witness :
    evNaT ∈ [evNaT] ∧ evNaT.date = none
    ∧ ("NaT", evNaT.state, evNaT.district) ∈ (streamWeekly [evNaT]).map Prod.fst :=
  ⟨List.mem_singleton.mpr rfl, rfl,
    c2_nat_week_bucketing [evNaT] evNaT (List.mem_singleton.mpr rfl) rfl⟩

/-- C5: risk classification is a pure deterministic function of
(severity score, trend label, anomaly flag) with first-match-wins
ordering; the code's `assign_risk` agrees with the specification's rule
table `specRisk` at every input, and the four quoted example triples
resolve as the claim states. -/
theorem c5_risk_classification :
    (∀ (s : ℚ) (t : Trend) (a : Bool), assign_risk s t a = specRisk s t a)
    ∧ assign_risk 95 .stable false = .Critical
    ∧ assign_risk 80 .rising false = .Emerging_Risk
    ∧ assign_risk 65 .declining true = .Watchlist
    ∧ assign_risk 40 .stable false = .Stable := by
  refine ⟨?_, by decide, by decide, by decide, by decide⟩
  intro s t a
  unfold assign_risk specRisk
  cases t <;> cases a <;> simp [List.mem_cons]

/-- C10: an anomalous first observation of a region (trend label
`insufficient_data`, anomaly flag set) with severity score below 60 is
escalated to Watchlist rather than Stable, because `insufficient_data` is
neither `accelerating_up`, `rising` nor `declining`. -/
theorem c10_anomalous_insufficient_data (s : ℚ) (h : s < 60) :
    assign_risk s .insufficient_data true = .Watchlist := by
  have h90 : ¬ (s ≥ 90) := by linarith
  have h75 : ¬ (s ≥ 75) := by linarith
  simp [assign_risk, h90, h75]

/-- Witness for `c10_anomalous_insufficient_data` at score 40. -/
theorem c10_anomalous_insufficient_data_witness :
    (40 : ℚ) < 60 ∧ assign_risk 40 .insufficient_data true = .Watchlist :=
  ⟨by norm_num, c10_anomalous_insufficient_data 40 (by norm_num)⟩

/-- Counting entries below `x` plus entries equal to `x` never exceeds the
column length. -/
theorem cnt_le_length (xs : List Int) (x : Int) :
    cntLt xs x + cntEq xs x ≤ xs.length := by
  induction xs with
  | nil => simp [cntLt, cntEq]
  | cons z zs ih =>
      simp only [cntLt, cntEq, List.filter_cons, List.length_cons] at ih ⊢
      by_cases h1 : z < x <;> by_cases h2 : z = x
      · exfalso; omega
      · simp [h1, h2]; omega
      · simp [h1, h2]; omega
      · simp [h1, h2]; omega

/-- A value occurring in the column ties with itself at least once. -/
theorem cntEq_pos (xs : List Int) (x : Int) (hx : x ∈ xs) : 1 ≤ cntEq xs x := by
  induction xs with
  | nil => simp at hx
  | cons z zs ih =>
      simp only [cntEq, List.filter_cons]
      by_cases h2 : z = x
      · simp [h2]
      · rcases List.mem_cons.mp hx with h | h
        · exact absurd h.symm h2
        · simpa [h2, cntEq] using ih h

/-- Every entry strictly below or tied with `y` lies strictly below any
`x > y`. -/
theorem cnt_mono (xs : List Int) (x y : Int) (hyx : y < x) :
    cntLt xs y + cntEq xs y ≤ cntLt xs x := by
  induction xs with
  | nil => simp [cntLt, cntEq]
  | cons z zs ih =>
      simp only [cntLt, cntEq, List.filter_cons, List.length_cons] at ih ⊢
      by_cases h1 : z < y <;> by_cases h2 : z = y <;> by_cases h3 : z < x <;>
        first
          | (exfalso; omega)
          | (simp [h1, h2, h3, hyx]; omega)

/-- An intra-week percentile rank of a reported value is strictly
positive. -/
theorem pctRank_pos (xs : List Int) (x : Int) (hx : x ∈ xs) :
    0 < pctRank xs x := by
  have hn : 0 < xs.length := List.length_pos.mpr (List.ne_nil_of_mem hx)
  have hE := cntEq_pos xs x hx
  have hnQ : (0 : ℚ) < (xs.length : ℚ) := by exact_mod_cast hn
  have hEQ : (1 : ℚ) ≤ (cntEq xs x : ℚ) := by exact_mod_cast hE
  have hL : (0 : ℚ) ≤ (cntLt xs x : ℚ) := by positivity
  have hnum : (0 : ℚ) < (cntLt xs x : ℚ) + ((cntEq xs x : ℚ) + 1) / 2 := by
    linarith
  exact mul_pos (div_pos hnum hnQ) (by norm_num)

/-- An intra-week percentile rank of a reported value is at most 100. -/
theorem pctRank_le_100 (xs : List Int) (x : Int) (hx : x ∈ xs) :
    pctRank xs x ≤ 100 := by
  have hn : 0 < xs.length := List.length_pos.mpr (List.ne_nil_of_mem hx)
  have hnQ : (0 : ℚ) < (xs.length : ℚ) := by exact_mod_cast hn
  have hEQ : (1 : ℚ) ≤ (cntEq xs x : ℚ) := by exact_mod_cast cntEq_pos xs x hx
  have hLEQ : (cntLt xs x : ℚ) + (cntEq xs x : ℚ) ≤ (xs.length : ℚ) := by
    exact_mod_cast cnt_le_length xs x
  unfold pctRank
  rw [div_mul_eq_mul_div, div_le_iff₀ hnQ]
  linarith

/-- Within one week, a strictly smaller total has a percentile rank no
greater than (indeed strictly less than, but this is all the claim needs)
that of a larger total. -/
theorem pctRank_mono (xs : List Int) (x y : Int) (hy : y ∈ xs) (hyx : y < x) :
    pctRank xs y ≤ pctRank xs x := by
  have hn : 0 < xs.length := List.length_pos.mpr (List.ne_nil_of_mem hy)
  have hnQ : (0 : ℚ) < (xs.length : ℚ) := by exact_mod_cast hn
  have hEQ : (1 : ℚ) ≤ (cntEq xs y : ℚ) := by exact_mod_cast cntEq_pos xs y hy
  have hm : (cntLt xs y : ℚ) + (cntEq xs y : ℚ) ≤ (cntLt xs x : ℚ) := by
    exact_mod_cast cnt_mono xs x y hyx
  have hEx : (0 : ℚ) ≤ (cntEq xs x : ℚ) := by positivity
  unfold pctRank
  have hnum : (cntLt xs y : ℚ) + ((cntEq xs y : ℚ) + 1) / 2
      ≤ (cntLt xs x : ℚ) + ((cntEq xs x : ℚ) + 1) / 2 := by linarith
  gcongr

/-- C7: within each week and stream, the intra-week percentile rank
(`groupby('week')[col].rank(pct=True) * 100`, average-rank ties) is
monotone in the underlying total, equal totals receive equal percentiles,
and every percentile of a reported value lies in (0, 100]. -/
theorem c7_percentile_ranks (xs : List Int) (x y : Int)
    (hx : x ∈ xs) (hy : y ∈ xs) :
    (y < x → pctRank xs y ≤ pctRank xs x)
    ∧ (y = x → pctRank xs y = pctRank xs x)
    ∧ 0 < pctRank xs x ∧ pctRank xs x ≤ 100 :=
  ⟨fun h => pctRank_mono xs x y hy h,
   fun h => by rw [h],
   pctRank_pos xs x hx, pctRank_le_100 xs x hx⟩

/-- Witness for `c7_percentile_ranks` on the week column [1, 2, 2]. -/
theorem c7_percentile_ranks_witness :
    ((2 : Int) ∈ [1, 2, 2] ∧ (1 : Int) ∈ [1, 2, 2])
    ∧ (((1 : Int) < 2 → pctRank [1, 2, 2] 1 ≤ pctRank [1, 2, 2] 2)
       ∧ ((1 : Int) = 2 → pctRank [1, 2, 2] 1 = pctRank [1, 2, 2] 2)
       ∧ 0 < pctRank [1, 2, 2] 2 ∧ pctRank [1, 2, 2] 2 ≤ 100) :=
  ⟨⟨by decide, by decide⟩, c7_percentile_ranks [1, 2, 2] 2 1 (by decide) (by decide)⟩

/-- Lookup in a keyed list fails exactly when the key is absent from the
key column. -/
theorem lookupKey_eq_none {α : Type} (k : GKey) (l : List (GKey × α)) :
    lookupKey k l = none ↔ k ∉ l.map Prod.fst := by
  induction l with
  | nil => simp [lookupKey]
  | cons p rest ih =>
      obtain ⟨k', a⟩ := p
      by_cases h : k' = k
      · subst h; simp [lookupKey]
      · have hne : ¬ k = k' := fun hh => h hh.symm
        simp only [lookupKey, if_neg h, List.map_cons, List.mem_cons, ih]
        tauto

/-- The union of key lists built by the two chained outer merges has no
duplicate key when each input key list has none. -/
theorem mergedKeys_nodup {k1 k2 k3 : List GKey}
    (h1 : k1.Nodup) (h2 : k2.Nodup) (h3 : k3.Nodup) :
    (mergedKeys k1 k2 k3).Nodup := by
  unfold mergedKeys
  rw [List.nodup_append, List.nodup_append]
  refine ⟨⟨h1, h2.filter _, ?_⟩, h3.filter _, ?_⟩
  · intro a ha hb
    have := (List.mem_filter.mp hb).2
    simp only [decide_eq_true_eq] at this
    exact this ha
  · intro a ha hb
    have hb' := (List.mem_filter.mp hb).2
    simp only [decide_eq_true_eq] at hb'
    rcases List.mem_append.mp ha with h | h
    · exact hb'.1 h
    · exact hb'.2 (List.mem_filter.mp h).1

/-- A key belongs to the merged key list exactly when it belongs to one of
the three per-stream key lists. -/
theorem mem_mergedKeys {k1 k2 k3 : List GKey} (k : GKey) :
    k ∈ mergedKeys k1 k2 k3 ↔ k ∈ k1 ∨ k ∈ k2 ∨ k ∈ k3 := by
  simp only [mergedKeys, List.mem_append, List.mem_filter, decide_eq_true_eq]
  by_cases e1 : k ∈ k1 <;> by_cases e2 : k ∈ k2 <;> by_cases e3 : k ∈ k3 <;>
    simp [e1, e2, e3]

/-- The key column of the merged table is exactly the merged key list of
the three per-stream aggregates. -/
theorem aggregate_weekly_keys (en : List (Event 3)) (de bi : List (Event 2)) :
    (aggregate_weekly en de bi).map EwsRow.key
      = mergedKeys ((streamWeekly en).map Prod.fst)
          ((streamWeekly de).map Prod.fst) ((streamWeekly bi).map Prod.fst) := by
  unfold aggregate_weekly
  rw [List.map_map]
  exact List.map_id _

/-- A key absent from a list occurs zero times in it. -/
theorem countKey_eq_zero {l : List GKey} {k : GKey} (h : k ∉ l) :
    countKey k l = 0 := by
  induction l with
  | nil => rfl
  | cons a l ih =>
      have hka : ¬ a = k := fun hh => h (hh ▸ List.mem_cons_self a l)
      have hkl : k ∉ l := fun hh => h (List.mem_cons_of_mem a hh)
      simp [countKey, List.filter_cons, hka] at ih ⊢
      exact ih hkl

/-- A key occurring in a duplicate-free list occurs exactly once in it. -/
theorem countKey_eq_one {l : List GKey} {k : GKey} (h : l.Nodup) (hm : k ∈ l) :
    countKey k l = 1 := by
  induction l with
  | nil => simp at hm
  | cons a l ih =>
      rcases List.mem_cons.mp hm with hk | hk
      · subst hk
        have hnot : k ∉ l := (List.nodup_cons.mp h).1
        simp [countKey, List.filter_cons]
        simpa [countKey] using countKey_eq_zero hnot
      · have hka : ¬ a = k := by
          intro hh
          exact (List.nodup_cons.mp h).1 (hh ▸ hk)
        have := ih (List.nodup_cons.mp h).2 hk
        simpa [countKey, List.filter_cons, hka] using this

/-- C9: every (week, state, region) key appearing in at least one of the
three per-stream weekly aggregates appears as exactly one row of the
merged table (the key column has no duplicates and the key's count is 1),
and every volume column of a stream that did not cover that key is filled
with zero — a non-negative integer — rather than left missing. -/
theorem c9_outer_join_invariant (en : List (Event 3)) (de bi : List (Event 2)) :
    ((aggregate_weekly en de bi).map EwsRow.key).Nodup
    ∧ (∀ k : GKey,
        (k ∈ (streamWeekly en).map Prod.fst ∨ k ∈ (streamWeekly de).map Prod.fst
          ∨ k ∈ (streamWeekly bi).map Prod.fst) →
        countKey k ((aggregate_weekly en de bi).map EwsRow.key) = 1)
    ∧ (∀ r, r ∈ aggregate_weekly en de bi →
        (r.key ∉ (streamWeekly en).map Prod.fst →
          r.enrolBr = (fun _ => 0) ∧ r.enrol_total = 0 ∧ 0 ≤ r.enrol_total)
        ∧ (r.key ∉ (streamWeekly de).map Prod.fst →
          r.demoBr = (fun _ => 0) ∧ r.demo_total = 0 ∧ 0 ≤ r.demo_total)
        ∧ (r.key ∉ (streamWeekly bi).map Prod.fst →
          r.bioBr = (fun _ => 0) ∧ r.bio_total = 0 ∧ 0 ≤ r.bio_total)) := by
  have hkeys := aggregate_weekly_keys en de bi
  have hn1 : ((streamWeekly en).map Prod.fst).Nodup := by
    rw [streamWeekly_keys]; exact List.nodup_dedup _
  have hn2 : ((streamWeekly de).map Prod.fst).Nodup := by
    rw [streamWeekly_keys]; exact List.nodup_dedup _
  have hn3 : ((streamWeekly bi).map Prod.fst).Nodup := by
    rw [streamWeekly_keys]; exact List.nodup_dedup _
  have hnodup : ((aggregate_weekly en de bi).map EwsRow.key).Nodup := by
    rw [hkeys]; exact mergedKeys_nodup hn1 hn2 hn3
  refine ⟨hnodup, ?_, ?_⟩
  · intro k hk
    have hmem : k ∈ (aggregate_weekly en de bi).map EwsRow.key := by
      rw [hkeys, mem_mergedKeys]; exact hk
    exact countKey_eq_one hnodup hmem
  · intro r hr
    simp only [aggregate_weekly, List.mem_map] at hr
    obtain ⟨k, hkmem, rfl⟩ := hr
    have hkey : EwsRow.key
        { week := k.1, state := k.2.1, district := k.2.2
          enrolBr := ((lookupKey k (streamWeekly en)).getD (fun _ => 0, 0)).1
          enrol_total := ((lookupKey k (streamWeekly en)).getD (fun _ => 0, 0)).2
          demoBr := ((lookupKey k (streamWeekly de)).getD (fun _ => 0, 0)).1
          demo_total := ((lookupKey k (streamWeekly de)).getD (fun _ => 0, 0)).2
          bioBr := ((lookupKey k (streamWeekly bi)).getD (fun _ => 0, 0)).1
          bio_total := ((lookupKey k (streamWeekly bi)).getD (fun _ => 0, 0)).2 } = k := rfl
    refine ⟨?_, ?_, ?_⟩ <;> intro hnot <;> rw [hkey] at hnot
    · have hnone : lookupKey k (streamWeekly en) = none :=
        (lookupKey_eq_none _ _).mpr hnot
      simp [hnone]
    · have hnone : lookupKey k (streamWeekly de) = none :=
        (lookupKey_eq_none _ _).mpr hnot
      simp [hnone]
    · have hnone : lookupKey k (streamWeekly bi) = none :=
        (lookupKey_eq_none _ _).mpr hnot
      simp [hnone]

/-- Witness for `c9_outer_join_invariant`: with one enrolment event and
one biometric event in different districts, the enrolment-only key
("W0", S, D) appears exactly once in the merged table. -/
theorem c9_outer_join_invariant_witness :
    (("W0", "S", "D") ∈ (streamWeekly [evE]).map Prod.fst
      ∨ ("W0", "S", "D") ∈ (streamWeekly ([] : List (Event 2))).map Prod.fst
      ∨ ("W0", "S", "D") ∈ (streamWeekly [evB]).map Prod.fst)
    ∧ countKey ("W0", "S", "D") ((aggregate_weekly [evE] [] [evB]).map EwsRow.key) = 1 :=
  ⟨Or.inl (by decide),
   (c9_outer_join_invariant [evE] [] [evB]).2.1 ("W0", "S", "D") (Or.inl (by decide))⟩

/-- Entry `i` of a running-difference list subtracts the previous series
value (or the seed, at entry 0). -/
theorem diffAux_get? (xs : List ℚ) : ∀ (p : ℚ) (i : Nat), i < xs.length →
    (diffAux p xs).get? i
      = some (some (xs.getD i 0 - (if i = 0 then p else xs.getD (i - 1) 0))) := by
  induction xs with
  | nil => intro p i h; simp at h
  | cons x rest ih =>
      intro p i h
      cases i with
      | zero => simp [diffAux]
      | succ j =>
          have hj : j < rest.length := by simpa using h
          simp only [diffAux, List.get?_cons_succ]
          rw [ih x j hj]
          cases j with
          | zero => simp
          | succ m => simp

/-- The change column `.diff()` at any entry after the first subtracts the
previous severity score from the current one. -/
theorem seriesDiff_get?_succ (xs : List ℚ) (i : Nat) (h : i + 1 < xs.length) :
    (seriesDiff xs).get? (i + 1) = some (some (xs.getD (i + 1) 0 - xs.getD i 0)) := by
  cases xs with
  | nil => simp at h
  | cons x rest =>
      have hi : i < rest.length := by simpa using h
      simp only [seriesDiff, List.get?_cons_succ]
      rw [diffAux_get? rest x i hi]
      cases i with
      | zero => simp
      | succ m => simp

/-- The change column starts with `NaN`. -/
theorem seriesDiff_get?_zero (x : ℚ) (rest : List ℚ) :
    (seriesDiff (x :: rest)).get? 0 = some none := rfl

/-- A running-difference list has the length of its input. -/
theorem diffAux_length (xs : List ℚ) : ∀ p, (diffAux p xs).length = xs.length := by
  induction xs with
  | nil => intro p; rfl
  | cons x rest ih => intro p; simp [diffAux, ih]

/-- `.diff()` preserves length. -/
theorem seriesDiff_length (xs : List ℚ) : (seriesDiff xs).length = xs.length := by
  cases xs with
  | nil => rfl
  | cons x rest => simp [seriesDiff, diffAux_length]

/-- Entry `i` of the `NaN`-propagating running difference combines the
previous column value (or the seed, at entry 0) with the current one. -/
theorem diffOAux_get? (cs : List (Option ℚ)) :
    ∀ (p : Option ℚ) (i : Nat), i < cs.length →
    (diffOAux p cs).get? i
      = some (diffO (if i = 0 then p else cs.getD (i - 1) none) (cs.getD i none)) := by
  induction cs with
  | nil => intro p i h; simp at h
  | cons c rest ih =>
      intro p i h
      cases i with
      | zero => simp [diffOAux]
      | succ j =>
          have hj : j < rest.length := by simpa using h
          simp only [diffOAux, List.get?_cons_succ]
          rw [ih c j hj]
          cases j with
          | zero => simp
          | succ m => simp

/-- The momentum column (`.diff()` of the change column) at any entry
after the first combines the two adjacent change entries. -/
theorem seriesDiffO_get?_succ (cs : List (Option ℚ)) (i : Nat)
    (h : i + 1 < cs.length) :
    (seriesDiffO cs).get? (i + 1)
      = some (diffO (cs.getD i none) (cs.getD (i + 1) none)) := by
  cases cs with
  | nil => simp at h
  | cons c rest =>
      have hi : i < rest.length := by simpa using h
      simp only [seriesDiffO, List.get?_cons_succ]
      rw [diffOAux_get? rest c i hi]
      cases i with
      | zero => simp
      | succ m => simp

/-- Reading a list at a known-defined position with a default returns the
known value. -/
theorem getD_of_get? {α : Type} {l : List α} {i : Nat} {a : α} (d : α)
    (h : l.get? i = some a) : l.getD i d = a := by
  rw [List.getD_eq_getElem?_getD, ← List.get?_eq_getElem?, h]
  rfl

/-- Row-wise classification agrees with the rule table once the momentum
column is defaulted to 0, exactly as `classify_trend` does. -/
theorem classify_trend_some (c : ℚ) (mo : Option ℚ) :
    classify_trend (some c) mo = specTrend c (mo.getD 0) := rfl

/-- C8: per entity (severity series sorted by week ascending), the first
observation is labeled `insufficient_data`; every later observation is
labeled by the ordered rule table applied to change (current minus prior
severity score) and momentum (the second difference, treated as 0 at the
second observation, where it is undefined). -/
theorem c8_trend_classification (xs : List ℚ) (hne : xs ≠ []) :
    (compute_trends xs).get? 0 = some .insufficient_data
    ∧ ∀ i : Nat, i + 1 < xs.length →
        (compute_trends xs).get? (i + 1)
          = some (specTrend (xs.getD (i + 1) 0 - xs.getD i 0)
              (if i = 0 then 0
               else (xs.getD (i + 1) 0 - xs.getD i 0)
                    - (xs.getD i 0 - xs.getD (i - 1) 0))) := by
  constructor
  · cases xs with
    | nil => exact absurd rfl hne
    | cons x rest => rfl
  · intro i h
    have hch := seriesDiff_get?_succ xs i h
    have hlen2 : i + 1 < (seriesDiff xs).length := by
      rw [seriesDiff_length]; exact h
    have hmo := seriesDiffO_get?_succ (seriesDiff xs) i hlen2
    rw [compute_trends, List.get?_zipWith', hch, hmo]
    simp only [Option.map_some', Option.some_bind, classify_trend_some]
    cases i with
    | zero =>
        cases xs with
        | nil => simp at h
        | cons x rest =>
            have h0 : (seriesDiff (x :: rest)).getD 0 none = none := rfl
            rw [h0]
            rfl
    | succ j =>
        have hj : j + 1 < xs.length := by omega
        have hd0 : (seriesDiff xs).getD (j + 1) none
            = some (xs.getD (j + 1) 0 - xs.getD j 0) :=
          getD_of_get? none (seriesDiff_get?_succ xs j hj)
        have hd1 : (seriesDiff xs).getD (j + 1 + 1) none
            = some (xs.getD (j + 1 + 1) 0 - xs.getD (j + 1) 0) :=
          getD_of_get? none (seriesDiff_get?_succ xs (j + 1) h)
        rw [hd0, hd1]
        simp [diffO]

/-- Witness for `c8_trend_classification` on the series [0, 10]: the first
row is `insufficient_data` and the second (change 10, momentum defaulted
to 0) is `rising`. -/
theorem c8_trend_classification_witness :
    (([0, 10] : List ℚ) ≠ [])
    ∧ (compute_trends [0, 10]).get? 0 = some Trend.insufficient_data
    ∧ (compute_trends [0, 10]).get? 1 = some Trend.rising := by
  refine ⟨by simp, (c8_trend_classification [0, 10] (by simp)).1, ?_⟩
  have h := (c8_trend_classification [0, 10] (by simp)).2 0 (by simp)
  rw [h]
  norm_num [specTrend]

/-- A defined sample standard deviation is a square root, hence
non-negative. -/
theorem sampleStd_nonneg {xs : List ℝ} {s : ℝ} (h : sampleStd xs = some s) :
    0 ≤ s := by
  unfold sampleStd at h
  split_ifs at h with hl
  simp only [Option.some.injEq] at h
  exact h ▸ Real.sqrt_nonneg _

/-- A defined coefficient of variation is non-negative: either it is the
`else 0` branch, or a non-negative standard deviation divided by a
positive mean. -/
theorem cvOf_nonneg {xs : List ℝ} {v : ℝ} (h : cvOf xs = some v) : 0 ≤ v := by
  unfold cvOf at h
  split_ifs at h with hm
  · obtain ⟨s, hs, rfl⟩ := Option.map_eq_some'.mp h
    exact div_nonneg (sampleStd_nonneg hs) (le_of_lt hm)
  · simp only [Option.some.injEq] at h
    exact h ▸ le_refl (0 : ℝ)

/-- Inverting a defined CV triple into its three per-stream CVs. -/
theorem cvTriple_eq_some {t : List EwsRow} {a b c : ℝ}
    (h : cvTriple t = some (a, b, c)) :
    cvOf (totalsE t) = some a ∧ cvOf (totalsD t) = some b
      ∧ cvOf (totalsB t) = some c := by
  unfold cvTriple at h
  simp only [Option.bind_eq_some, Option.map_eq_some'] at h
  obtain ⟨a', ha, b', hb, c', hc, heq⟩ := h
  obtain ⟨rfl, rfl, rfl⟩ : a' = a ∧ b' = b ∧ c' = c := by
    have h1 := congrArg Prod.fst heq
    have h2 := congrArg (Prod.fst ∘ Prod.snd) heq
    have h3 := congrArg (Prod.snd ∘ Prod.snd) heq
    exact ⟨h1, h2, h3⟩
  exact ⟨ha, hb, hc⟩

/-- Inverting a defined weight vector into its CVs and normalization. -/
theorem weightVector_eq_some {t : List EwsRow} {wa wb wc : ℝ}
    (h : weightVector t = some (wa, wb, wc)) :
    ∃ a b c, cvTriple t = some (a, b, c) ∧ a + b + c ≠ 0
      ∧ wa = a / (a + b + c) ∧ wb = b / (a + b + c) ∧ wc = c / (a + b + c) := by
  unfold weightVector at h
  rcases hT : cvTriple t with _ | ⟨a, b, c⟩ <;> rw [hT] at h
  · simp at h
  · by_cases h0 : a + b + c = 0
    · simp [h0] at h
    · simp only [h0, if_false, ite_false, Option.some.injEq, Prod.mk.injEq] at h
      exact ⟨a, b, c, rfl, h0, h.1.symm, h.2.1.symm, h.2.2.symm⟩

/-- A defined weight vector has non-negative components summing to 1. -/
theorem weightVector_nonneg_sum_one {t : List EwsRow} {wa wb wc : ℝ}
    (h : weightVector t = some (wa, wb, wc)) :
    0 ≤ wa ∧ 0 ≤ wb ∧ 0 ≤ wc ∧ wa + wb + wc = 1 := by
  obtain ⟨a, b, c, hT, h0, hwa, hwb, hwc⟩ := weightVector_eq_some h
  obtain ⟨hE, hD, hB⟩ := cvTriple_eq_some hT
  have ha := cvOf_nonneg hE
  have hb := cvOf_nonneg hD
  have hc := cvOf_nonneg hB
  have hpos : 0 < a + b + c := lt_of_le_of_ne (by linarith) (Ne.symm h0)
  subst hwa hwb hwc
  refine ⟨by positivity, by positivity, by positivity, ?_⟩
  field_simp

/-- The code's per-stream CV agrees everywhere with the amended
specification `sampleCVSpec` (Bessel-corrected sample standard deviation
over the mean; 0 for a non-positive mean; undefined for a single row). -/
theorem cvOf_eq_sampleCVSpec (xs : List ℝ) : cvOf xs = sampleCVSpec xs := by
  unfold cvOf sampleCVSpec sampleStd
  split_ifs with hm hl hl' <;> simp_all
  omega

/-- C3 (amended): for every aggregated table and each stream total, the
code's coefficient of variation is the SAMPLE standard deviation (pandas
`std()`, `ddof=1`, denominator n - 1) divided by the mean when the mean is
positive (undefined — `NaN` — for a single-row table), and exactly 0 when
the mean is not positive. -/
theorem c3_cv_uses_sample_std (t : List EwsRow) :
    cvOf (totalsE t) = sampleCVSpec (totalsE t)
    ∧ cvOf (totalsD t) = sampleCVSpec (totalsD t)
    ∧ cvOf (totalsB t) = sampleCVSpec (totalsB t) :=
  ⟨cvOf_eq_sampleCVSpec _, cvOf_eq_sampleCVSpec _, cvOf_eq_sampleCVSpec _⟩

/-- The enrolment totals of the two-row table are 0 and 2. -/
theorem totalsE_twoRows : totalsE tableTwoRows = [0, 2] := by
  norm_num [totalsE, tableTwoRows, zeroRow]

/-- Their mean is 1. -/
theorem meanR_twoRows : meanR [(0 : ℝ), 2] = 1 := by
  norm_num [meanR, List.sum_cons, List.sum_nil]

/-- Their sample standard deviation is the square root of 2 (squared
deviations 1 + 1 over n - 1 = 1). -/
theorem sampleStd_twoRows : sampleStd [(0 : ℝ), 2] = some (Real.sqrt 2) := by
  rw [sampleStd, if_neg (by norm_num)]
  rw [meanR_twoRows]
  norm_num

/-- C3 counterexample: on the aggregated table with enrolment totals 0
and 2, the code computes CV = sqrt 2 (sample standard deviation sqrt 2
over mean 1), while the claim's population-standard-deviation CV is 1
(population standard deviation 1 over mean 1) — and sqrt 2 is not 1, so
the claim's description of the computed statistic is false on the code. -/
theorem c3_counterexample :
    cvOf (totalsE tableTwoRows) = some (Real.sqrt 2)
    ∧ cvSpecPop (totalsE tableTwoRows) = 1
    ∧ Real.sqrt 2 ≠ 1 := by
  refine ⟨?_, ?_, ?_⟩
  · rw [totalsE_twoRows, cvOf, if_pos (by rw [meanR_twoRows]; norm_num),
      sampleStd_twoRows]
    rw [meanR_twoRows]
    norm_num
  · rw [totalsE_twoRows, cvSpecPop, if_neg (by rw [meanR_twoRows]; norm_num)]
    rw [popStd, meanR_twoRows]
    norm_num
  · intro heq
    have h2 : Real.sqrt 2 ^ 2 = 2 := Real.sq_sqrt (by norm_num)
    rw [heq] at h2
    norm_num at h2

/-- Every stream-total column of the all-zero one-row table is [0]. -/
theorem totals_allZero :
    totalsE tableAllZero = [0] ∧ totalsD tableAllZero = [0]
      ∧ totalsB tableAllZero = [0] := by
  norm_num [totalsE, totalsD, totalsB, tableAllZero, zeroRow]

/-- A zero column has CV 0 through the `else 0` guard (its mean is not
positive). -/
theorem cvOf_zero_col : cvOf [(0 : ℝ)] = some 0 := by
  rw [cvOf, if_neg]
  rw [meanR]
  norm_num

/-- C4 counterexample: on a table whose three stream means are all zero,
all three CVs take the `else 0` branch, `total_cv` is 0, and the
normalization `v / total_cv` divides by zero — in the code a
`ZeroDivisionError` (all three values are the Python integer 0), modelled
by `weightVector = none`.  No weight triple is produced at all, refuting
the claim that estimation completes without a division fault and yields
three non-negative weights summing to 1 even when all stream means are
zero. -/
theorem c4_counterexample :
    cvTriple tableAllZero = some (0, 0, 0)
    ∧ weightVector tableAllZero = none := by
  obtain ⟨hE, hD, hB⟩ := totals_allZero
  have hT : cvTriple tableAllZero = some (0, 0, 0) := by
    rw [cvTriple, hE, hD, hB, cvOf_zero_col]
    rfl
  refine ⟨hT, ?_⟩
  rw [weightVector, hT]
  norm_num

/-- C4 (amended): whenever the three stream CVs are all defined and their
sum is nonzero (in particular whenever at least one stream has positive
dispersion), normalization succeeds and yields three non-negative weights
summing exactly to 1; when the CV sum is zero — e.g. all three stream
means are zero — the normalization divides by zero instead (see
`c4_counterexample`). -/
theorem c4_weight_normalization (t : List EwsRow) (a b c : ℝ)
    (hT : cvTriple t = some (a, b, c)) (h0 : a + b + c ≠ 0) :
    ∃ wa wb wc, weightVector t = some (wa, wb, wc)
      ∧ 0 ≤ wa ∧ 0 ≤ wb ∧ 0 ≤ wc ∧ wa + wb + wc = 1 := by
  have hw : weightVector t
      = some (a / (a + b + c), b / (a + b + c), c / (a + b + c)) := by
    rw [weightVector, hT]
    simp [h0]
  obtain ⟨h1, h2, h3, h4⟩ := weightVector_nonneg_sum_one hw
  exact ⟨_, _, _, hw, h1, h2, h3, h4⟩

/-- The enrolment totals of the three-row table are 0, 1, 2. -/
theorem totalsE_threeRows : totalsE tableThreeRows = [0, 1, 2] := by
  norm_num [totalsE, tableThreeRows, zeroRow]

/-- The other stream totals of the three-row table are all zero. -/
theorem totalsDB_threeRows :
    totalsD tableThreeRows = [0, 0, 0] ∧ totalsB tableThreeRows = [0, 0, 0] := by
  norm_num [totalsD, totalsB, tableThreeRows, zeroRow]

/-- Mean of the column [0, 1, 2] is 1. -/
theorem meanR_threeRows : meanR [(0 : ℝ), 1, 2] = 1 := by
  norm_num [meanR, List.sum_cons, List.sum_nil]

/-- The column [0, 1, 2] has sample standard deviation 1 and hence CV 1. -/
theorem cvOf_threeRows : cvOf [(0 : ℝ), 1, 2] = some 1 := by
  have hstd : sampleStd [(0 : ℝ), 1, 2] = some 1 := by
    rw [sampleStd, if_neg (by norm_num)]
    rw [meanR_threeRows]
    norm_num
  rw [cvOf, if_pos (by rw [meanR_threeRows]; norm_num), hstd]
  rw [meanR_threeRows]
  norm_num

/-- A three-entry zero column also takes the `else 0` CV branch. -/
theorem cvOf_zero_col3 : cvOf [(0 : ℝ), 0, 0] = some 0 := by
  rw [cvOf, if_neg]
  rw [meanR]
  norm_num

/-- The CV triple of the three-row table is (1, 0, 0). -/
theorem cvTriple_threeRows : cvTriple tableThreeRows = some (1, 0, 0) := by
  obtain ⟨hD, hB⟩ := totalsDB_threeRows
  rw [cvTriple, totalsE_threeRows, hD, hB, cvOf_threeRows, cvOf_zero_col3]
  rfl

/-- Witness for `c4_weight_normalization` on the three-row table, whose
CV triple is (1, 0, 0) with nonzero sum. -/
theorem c4_weight_normalization_witness :
    cvTriple tableThreeRows = some (1, 0, 0) ∧ ((1 : ℝ) + 0 + 0 ≠ 0)
    ∧ ∃ wa wb wc, weightVector tableThreeRows = some (wa, wb, wc)
        ∧ 0 ≤ wa ∧ 0 ≤ wb ∧ 0 ≤ wc ∧ wa + wb + wc = 1 :=
  ⟨cvTriple_threeRows, by norm_num,
   c4_weight_normalization tableThreeRows 1 0 0 cvTriple_threeRows (by norm_num)⟩

/-- C6 (amended): for every table on which the weight vector is defined
(the CVs are not `NaN` and their sum is nonzero), every row's severity
score is defined and lies in the closed interval [0, 100]; it is the
weight-vector-weighted sum of the row's three intra-week stream
percentiles. -/
theorem c6_severity_in_range (t : List EwsRow) (wa wb wc : ℝ)
    (hw : weightVector t = some (wa, wb, wc)) :
    ∀ s ∈ severityColumn t, ∃ x : ℝ, s = some x ∧ 0 ≤ x ∧ x ≤ 100 := by
  obtain ⟨hwa, hwb, hwc, hsum⟩ := weightVector_nonneg_sum_one hw
  intro s hs
  rw [severityColumn, hw] at hs
  obtain ⟨r, hr, rfl⟩ := List.mem_map.mp hs
  have hrE : r.enrol_total ∈ weekTotalsE t r.week := by
    exact List.mem_map_of_mem _ (List.mem_filter.mpr ⟨hr, by simp⟩)
  have hrD : r.demo_total ∈ weekTotalsD t r.week := by
    exact List.mem_map_of_mem _ (List.mem_filter.mpr ⟨hr, by simp⟩)
  have hrB : r.bio_total ∈ weekTotalsB t r.week := by
    exact List.mem_map_of_mem _ (List.mem_filter.mpr ⟨hr, by simp⟩)
  have hE0 : (0 : ℝ) < ((pctRank (weekTotalsE t r.week) r.enrol_total : ℚ) : ℝ) := by
    exact_mod_cast pctRank_pos _ _ hrE
  have hE1 : ((pctRank (weekTotalsE t r.week) r.enrol_total : ℚ) : ℝ) ≤ 100 := by
    exact_mod_cast pctRank_le_100 _ _ hrE
  have hD0 : (0 : ℝ) < ((pctRank (weekTotalsD t r.week) r.demo_total : ℚ) : ℝ) := by
    exact_mod_cast pctRank_pos _ _ hrD
  have hD1 : ((pctRank (weekTotalsD t r.week) r.demo_total : ℚ) : ℝ) ≤ 100 := by
    exact_mod_cast pctRank_le_100 _ _ hrD
  have hB0 : (0 : ℝ) < ((pctRank (weekTotalsB t r.week) r.bio_total : ℚ) : ℝ) := by
    exact_mod_cast pctRank_pos _ _ hrB
  have hB1 : ((pctRank (weekTotalsB t r.week) r.bio_total : ℚ) : ℝ) ≤ 100 := by
    exact_mod_cast pctRank_le_100 _ _ hrB
  refine ⟨_, rfl, ?_, ?_⟩
  · have t1 := mul_nonneg hwa (le_of_lt hE0)
    have t2 := mul_nonneg hwb (le_of_lt hD0)
    have t3 := mul_nonneg hwc (le_of_lt hB0)
    linarith
  · have t1 := mul_le_mul_of_nonneg_left hE1 hwa
    have t2 := mul_le_mul_of_nonneg_left hD1 hwb
    have t3 := mul_le_mul_of_nonneg_left hB1 hwc
    nlinarith [hsum]

/-- C6 counterexample: on a one-row aggregated table with positive
totals, `std()` of a single observation is `NaN` (ddof = 1), so every
weight and every severity score is `NaN` — the lone output row's severity
score is not a real number in [0, 100] (nor any real number), refuting
the unconditional claim. -/
theorem c6_counterexample :
    severityColumn tableOneRow = [none]
    ∧ ∀ x : ℝ, ¬ ((none : Option ℝ) = some x ∧ 0 ≤ x ∧ x ≤ 100) := by
  constructor
  · have hE : totalsE tableOneRow = [7] := by
      norm_num [totalsE, tableOneRow, zeroRow]
    have hcv : cvOf [(7 : ℝ)] = none := by
      rw [cvOf, if_pos]
      · rw [sampleStd, if_pos (by norm_num)]
        rfl
      · rw [meanR]; norm_num
    have hT : cvTriple tableOneRow = none := by
      rw [cvTriple, hE, hcv]
      rfl
    have hw : weightVector tableOneRow = none := by
      rw [weightVector, hT]
    rw [severityColumn, hw]
    rfl
  · intro x hx
    exact Option.noConfusion hx.1

/-- The weight vector of the three-row table is fully defined: (1, 0, 0). -/
theorem weightVector_threeRows : weightVector tableThreeRows = some (1, 0, 0) := by
  rw [weightVector, cvTriple_threeRows]
  norm_num

/-- Witness for `c6_severity_in_range` on the three-row table. -/
theorem c6_severity_in_range_witness :
    weightVector tableThreeRows = some (1, 0, 0)
    ∧ ∀ s ∈ severityColumn tableThreeRows, ∃ x : ℝ, s = some x ∧ 0 ≤ x ∧ x ≤ 100 :=
  ⟨weightVector_threeRows,
   c6_severity_in_range tableThreeRows 1 0 0 weightVector_threeRows⟩
